import Mathlib

/-!
Shallow embedding of the `netconf-rust` client core (crate `netconf-async`):
the NETCONF 1.0/1.1 framer (`src/netconf-async/src/framer/async_framer.rs`),
the message model and codec helpers (`src/netconf-async/src/message.rs`), the
session/connection state machine (`src/netconf-async/src/connection.rs`) and
the error taxonomy (`src/netconf-async/src/error.rs`).

Conventions of the embedding:
- Byte streams are `List Nat` (each element one octet, values < 256).
- Rust `String` values handled by the framer are modelled at the byte level;
  `String::from_utf8_lossy(..).trim_end()` is modelled by `rustTrimEnd`,
  removal of trailing ASCII whitespace octets, which agrees with the Rust
  semantics on ASCII content (the theorems that depend on this carry an
  ASCII hypothesis).
- Rust `u32` arithmetic is `Nat` with an explicit `% 2 ^ 32`.
- Fallible Rust code returns `Except` / `Option`; a reachable `unwrap`
  on `None` is modelled by propagating `Option.none`.
-/

namespace Netconf

/-! ## Error taxonomy, from `src/netconf-async/src/error.rs`.

`MalformedChunk { expected: char, actual: char }` is embedded with the two
characters as their Unicode code points (`Nat`); the framer always builds
them from single octets via `u8 -> char`. -/

inductive ErrorSeverity where
  | error
  | warning
deriving DecidableEq, Repr

inductive ErrorType where
  | transport
  | rpc
  | protocol
  | app
deriving DecidableEq, Repr

inductive ErrorTag where
  | inUse
  | invalidValue
  | tooBig
  | missingAttribute
  | badAttribute
  | unknownAttribute
  | missingElement
  | badElement
  | unknownElement
  | unknownNamespace
  | accessDenied
  | lockDenied
  | resourceDenied
  | rollbackFailed
  | dataExists
  | dataMissing
  | operationNotSupported
  | operationFailed
  | partialOperation
  | malformedMessage
deriving DecidableEq, Repr

/-- `struct ErrorInfo` of `message.rs` (all fields optional). -/
structure ErrorInfo where
  bad_element : Option String
  bad_attribute : Option String
  bad_namespace : Option String
  ok_element : Option String
  err_element : Option String
  noop_element : Option String
  session_id : Option Nat
deriving DecidableEq, Repr

/-- `struct Error` (an `rpc-error` record) of `message.rs`. -/
structure RpcError where
  error_severity : ErrorSeverity
  error_type : ErrorType
  error_tag : ErrorTag
  error_app_tag : Option String
  error_path : Option String
  error_message : Option String
  error_info : Option ErrorInfo
deriving DecidableEq, Repr

/-- `struct RpcReply` of `message.rs`: `message_id`, `rpc_error:
Option<Vec<Error>>`, `ok: Option<()>`. -/
structure RpcReply where
  message_id : String
  rpc_error : Option (List RpcError)
  ok : Option Unit
deriving DecidableEq, Repr

/-- `RpcReply::is_ok`. -/
def RpcReply.is_ok (r : RpcReply) : Bool :=
  r.ok.isSome && r.rpc_error.isNone

/-- `RpcReply.has_errors`: `self.rpc_error.is_some()`. -/
def RpcReply.has_errors (r : RpcReply) : Bool :=
  r.rpc_error.isSome

/-- `enum NetconfClientError` of `error.rs` (the variants the embedded code
reaches; `Io` stands for any I/O failure such as `read_exact` hitting EOF,
and `SerializingFailure` carries the external decoder's message). -/
inductive NetconfClientError where
  | io : NetconfClientError
  | serializingFailure : String → NetconfClientError
  | netconf : RpcReply → NetconfClientError
  | unknownDatastore : List String → String → NetconfClientError
  | malformedChunk : Nat → Nat → NetconfClientError
  | anyhow : String → NetconfClientError
deriving DecidableEq, Repr

/-! ## Datastore, from `impl FromStr for Datastore` in `message.rs`. -/

inductive Datastore where
  | candidate
  | running
  | startup
  | url : String → Datastore
deriving DecidableEq, Repr

/-- ASCII lowercasing of one character; models Rust `str::to_lowercase` on
ASCII input (the Unicode tables agree with this on the ASCII range). -/
def lowerChar (c : Char) : Char :=
  if 65 ≤ c.toNat ∧ c.toNat ≤ 90 then Char.ofNat (c.toNat + 32) else c

/-- ASCII lowercasing of a string (character-wise over the underlying
character list). -/
def lowerStr (s : String) : String :=
  String.mk (s.data.map lowerChar)

/-- Rust `str::starts_with` with a string pattern: prefix test on the
character lists. -/
def startsWithStr (s p : String) : Bool :=
  p.data.isPrefixOf s.data

/-- `Datastore::from_str`: lowercase the input, match the three datastore
names, fall back to URL detection on the `http`/`file`/`ftp` schemes, and
otherwise fail with `UnknownDatastore` listing the expected set. -/
def Datastore.from_str (s : String) : Except NetconfClientError Datastore :=
  let datastore := lowerStr s
  if datastore = "running" then .ok .running
  else if datastore = "candidate" then .ok .candidate
  else if datastore = "startup" then .ok .startup
  else if startsWithStr datastore "http" ∨ startsWithStr datastore "file"
      ∨ startsWithStr datastore "ftp" then
    .ok (.url datastore)
  else
    .error (.unknownDatastore
      ["running", "candidate", "startup", "ftp|http|file"] datastore)

/-! ## Reply decoding, from the serde derive on `RpcReply` in `message.rs`.

The XML deserializer is the external `quick_xml` crate; what the repository
contributes is the field/attribute layout: `rpc_error: Option<Vec<Error>>`
collects every `<rpc-error>` child (absent when there are none) and
`ok: Option<()>` is present exactly when `<ok/>` occurs.  `ReplyDoc`
abstracts a reply XML document that decodes successfully: its list of
`rpc-error` records and whether `<ok/>` is present. -/

structure ReplyDoc where
  message_id : String
  errors : List RpcError
  hasOk : Bool
deriving DecidableEq, Repr

/-- Decoding a reply document according to the serde derive on `RpcReply`:
zero `<rpc-error>` children give `rpc_error = None`, one or more give
`Some` of the list, in document order. -/
def decodeReply (d : ReplyDoc) : RpcReply :=
  { message_id := d.message_id
    rpc_error := if d.errors.isEmpty then none else some d.errors
    ok := if d.hasOk then some () else none }

/-! ## Framer, from `src/netconf-async/src/framer/async_framer.rs`.

The transport channel is modelled as the list of octets still to be read;
`read_exact` takes a prefix of that list and fails with an I/O error when
too few octets remain.  For 1.0-mode reads, where the code issues
`channel.read` calls that may return partial data, the channel is a list of
segments (the successive results of `read`). -/

/-- Trailing-whitespace removal on octets: models
`String::from_utf8_lossy(..).trim_end()` for ASCII content.  The octets
9..13 and 32 are exactly the ASCII characters Rust's
`char::is_whitespace` accepts. -/
def rustTrimEnd (bs : List Nat) : List Nat :=
  (bs.reverse.dropWhile (fun b => b = 32 ∨ (9 ≤ b ∧ b ≤ 13))).reverse

/-- The digit-accumulation loop of `AsyncFramer::read_header` after the
leading `"\n#"` has been consumed: read one octet at a time; `'#'` (35) is
skipped, `'\n'` (10) returns the accumulated size, a decimal digit is
accumulated into the `u32` size, and any other octet fails with
`MalformedChunk { expected: '0', actual }`. -/
def parseChunkSize : List Nat → Nat → Except NetconfClientError (Nat × List Nat)
  | [], _ => .error .io
  | b :: rest, size =>
    if b = 35 then parseChunkSize rest size
    else if b = 10 then .ok (size, rest)
    else if 48 ≤ b ∧ b ≤ 57 then
      parseChunkSize rest ((size * 10 + (b - 48)) % 2 ^ 32)
    else .error (.malformedChunk 48 b)

/-- `AsyncFramer::read_header`: read two octets, require `"\n#"` (failing
with `MalformedChunk` naming the expected character otherwise), then run the
digit loop.  Returns the chunk size and the unread rest of the channel. -/
def read_header : List Nat → Except NetconfClientError (Nat × List Nat)
  | b0 :: b1 :: rest =>
    if b0 ≠ 10 then .error (.malformedChunk 10 b0)
    else if b1 ≠ 35 then .error (.malformedChunk 35 b1)
    else parseChunkSize rest 0
  | _ => .error .io

/-- The chunk-reading loop of `AsyncFramer::read_async` in 1.1 mode:
repeatedly parse a header and read exactly that many payload octets into
the accumulator, stopping on a zero-size header.  `fuel` bounds the number
of iterations; since every successful header consumes at least three octets
of the channel, `channel.length + 1` iterations are never exhausted, so
`read_async_11` below is total on the code's behaviour. -/
def readChunks : Nat → List Nat → List Nat →
    Except NetconfClientError (List Nat)
  | 0, _, _ => .error .io
  | fuel + 1, channel, acc =>
    match read_header channel with
    | .error e => .error e
    | .ok (size, rest) =>
      if size = 0 then .ok acc
      else if size ≤ rest.length then
        readChunks fuel (rest.drop size) (acc ++ rest.take size)
      else .error .io

/-- `AsyncFramer::read_async` in 1.1 (upgraded) mode: run the chunk loop on
the channel, then return the accumulated payload with trailing whitespace
trimmed (`from_utf8_lossy(..).trim_end()`). -/
def read_async_11 (channel : List Nat) : Except NetconfClientError (List Nat) :=
  (readChunks (channel.length + 1) channel []).map rustTrimEnd

/-- The ASCII decimal digits of `n`, most significant first — the octets
`format!("{}", n)` produces. -/
def decDigits (n : Nat) : List Nat :=
  if h : n < 10 then [n + 48]
  else
    have : n / 10 < n := Nat.div_lt_self (by omega) (by omega)
    decDigits (n / 10) ++ [n % 10 + 48]

/-- `AsyncFramer::write_async` in 1.1 (upgraded) mode: emit
`"\n#" ++ decimal(len) ++ "\n"`, the payload, then `"\n##\n"`. -/
def write_async_11 (msg : List Nat) : List Nat :=
  10 :: 35 :: decDigits msg.length ++ 10 :: msg ++ [10, 35, 35, 10]

/-- A wire encoding of `msg` as one 1.1 chunk of size 1 per octet
(`"\n#1\n" ++ [b]` for each octet `b`), closed by `"\n##\n"` — the
"split into chunks of size 1" stream of the specification. -/
def chunksOfOne : List Nat → List Nat
  | [] => [10, 35, 35, 10]
  | b :: rest => 10 :: 35 :: 49 :: 10 :: b :: chunksOfOne rest

/-- The NETCONF 1.0 end-of-message terminator `"]]>]]>"` as octets. -/
def terminator : List Nat := [93, 93, 62, 93, 93, 62]

/-- Leftmost occurrence of `pat` in `l`, as an index: models
`TwoWaySearcher::search_in`. -/
def findSub (pat : List Nat) : List Nat → Option Nat
  | [] => if pat = [] then some 0 else none
  | b :: rest =>
    if pat.isPrefixOf (b :: rest) then some 0
    else (findSub pat rest).map (· + 1)

/-- `AsyncFramer::read_async` in 1.0 mode: extend the read buffer from the
channel (one segment per `read` call) until it contains `"]]>]]>"`; return
the octets strictly before the terminator, trimmed of trailing whitespace,
and drop buffer content through the terminator.  The result pairs the
returned message with the buffer left behind for the next read.  When the
channel runs out before a terminator appears the model fails with an I/O
error (the code would keep polling a quiet channel). -/
def read_async_10 : List (List Nat) → List Nat →
    Except NetconfClientError (List Nat × List Nat)
  | segs, buffer =>
    match findSub terminator buffer with
    | some pos =>
      .ok (rustTrimEnd (buffer.take pos), buffer.drop (pos + 6))
    | none =>
      match segs with
      | [] => .error .io
      | s :: rest => read_async_10 rest (buffer ++ s)

/-! ## Filter, from `Filter::subtree` / `Filter::strip_slashes` in
`message.rs`.  Strings are handled as `List Char` here; `trimChars` models
Rust `str::trim` (both ends) for ASCII content. -/

/-- Rust `char::is_whitespace` restricted to ASCII: space, `\t`, `\n`,
vertical tab, form feed, `\r`. -/
def wsChar (c : Char) : Bool :=
  c.toNat = 32 ∨ (9 ≤ c.toNat ∧ c.toNat ≤ 13)

/-- `str::trim` on ASCII content: drop leading and trailing whitespace. -/
def trimChars (cs : List Char) : List Char :=
  ((cs.dropWhile wsChar).reverse.dropWhile wsChar).reverse

/-- The leading-whitespace half of `trimChars`. -/
def frontTrim (cs : List Char) : List Char :=
  cs.dropWhile wsChar

/-- The trailing-whitespace half of `trimChars`. -/
def backTrim (cs : List Char) : List Char :=
  (cs.reverse.dropWhile wsChar).reverse

/-- The character loop of `Filter::strip_slashes` after the initial
`trim`: every `'\'` is dropped and the following character emitted
verbatim; a `'\'` with no following character makes the whole call return
`None` (the `chars.next()?`). -/
def stripSlashesChars : List Char → Option (List Char)
  | [] => some []
  | c :: rest =>
    if c = '\\' then
      match rest with
      | [] => none
      | d :: rest2 => (stripSlashesChars rest2).map (d :: ·)
    else (stripSlashesChars rest).map (c :: ·)

/-- `Filter::strip_slashes`: trim, then strip backslash escapes. -/
def strip_slashes (s : List Char) : Option (List Char) :=
  stripSlashesChars (trimChars s)

/-- `struct Filter` of `message.rs` (the payload as characters). -/
structure Filter where
  filter_type : String
  filter : List Char
deriving DecidableEq, Repr

/-- `Filter::subtree`: `strip_slashes(filter).unwrap()`, then trim and
store with type `"subtree"`.  The `unwrap` on a failed `strip_slashes` is a
panic, modelled as `none`. -/
def Filter.subtree (s : List Char) : Option Filter :=
  (strip_slashes s).map fun f =>
    { filter_type := "subtree", filter := trimChars f }

/-! ## XML text escaping, from the `quick_xml` escape/unescape pair the
codec composes with (`quick_xml::escape::unescape` is called by
`impl Display for Rpc` on the whole serialised envelope of a `get` /
`get-config`; the serializer escapes text content with the matching
`escape`).  Only the five named entities are modelled — the serializer
never emits numeric character references, so they are unreachable in the
composition the theorems take. -/

/-- Escaping of one text character: the five XML special characters become
named entities, everything else passes through. -/
def escChar (c : Char) : List Char :=
  if c = '&' then ['&', 'a', 'm', 'p', ';']
  else if c = '<' then ['&', 'l', 't', ';']
  else if c = '>' then ['&', 'g', 't', ';']
  else if c = '\'' then ['&', 'a', 'p', 'o', 's', ';']
  else if c = '"' then ['&', 'q', 'u', 'o', 't', ';']
  else [c]

/-- `quick_xml::escape::escape` over a character list. -/
def escapeChars (cs : List Char) : List Char :=
  cs.flatMap escChar

/-- `quick_xml::escape::unescape` over a character list: replace the five
named entities by their characters; an `'&'` opening no recognised entity
is an unescape error (`none`), which the `unwrap` in `Display for Rpc`
would turn into a panic. -/
def unescapeChars : List Char → Option (List Char)
  | [] => some []
  | c :: rest =>
    if c = '&' then
      if ['a', 'm', 'p', ';'].isPrefixOf rest then
        (unescapeChars (rest.drop 4)).map ('&' :: ·)
      else if ['l', 't', ';'].isPrefixOf rest then
        (unescapeChars (rest.drop 3)).map ('<' :: ·)
      else if ['g', 't', ';'].isPrefixOf rest then
        (unescapeChars (rest.drop 3)).map ('>' :: ·)
      else if ['a', 'p', 'o', 's', ';'].isPrefixOf rest then
        (unescapeChars (rest.drop 5)).map ('\'' :: ·)
      else if ['q', 'u', 'o', 't', ';'].isPrefixOf rest then
        (unescapeChars (rest.drop 5)).map ('"' :: ·)
      else none
    else (unescapeChars rest).map (c :: ·)
termination_by cs => cs.length
decreasing_by
  all_goals simp [List.length_drop]
  all_goals omega

/-- The serialised `<rpc><get>` envelope with a subtree filter and no
`with-defaults`, as the `quick_xml` serializer produces it before the
final unescape (two-space pretty-printing, the layout pinned by the
repository's `test_serialize_get`): the filter payload occurs as escaped
text between the `<filter type="subtree">` and `</filter>` tags. -/
def serializeGetEnvelope (message_id : List Char) (f : Filter) : List Char :=
  ("<rpc message-id=\"").toList ++ message_id
    ++ ("\" xmlns=\"urn:ietf:params:xml:ns:netconf:base:1.0\">\n  <get>\n    <filter type=\"subtree\">\n      ").toList
    ++ escapeChars f.filter
    ++ ("\n    </filter>\n  </get>\n</rpc>").toList

/-- `impl Display for Rpc` on a `get` with a subtree filter: serialise,
then unescape the whole buffer (the `Get`/`GetConfig` arm); the `unwrap`
on an unescape failure is modelled as `none`. -/
def displayGetRpc (message_id : List Char) (f : Filter) : Option (List Char) :=
  unescapeChars (serializeGetEnvelope message_id f)

/-! ## Session, from `src/netconf-async/src/connection.rs`. -/

/-- `NETCONF_URN` (`lib.rs`): the NETCONF base namespace. -/
def NETCONF_URN : String := "urn:ietf:params:xml:ns:netconf:base:1.0"

/-- `NETCONF_BASE_11_CAP` (`lib.rs`). -/
def NETCONF_BASE_11_CAP : String := "urn:ietf:params:netconf:base:1.1"

/-- `struct Hello` of `message.rs`: namespace, capability list, optional
server-assigned session id. -/
structure Hello where
  xmlns : String
  capabilities : List String
  session_id : Option Nat
deriving DecidableEq, Repr

/-- `Hello::new`: the client hello, advertising base 1.0 and base 1.1. -/
def Hello.new : Hello :=
  { xmlns := NETCONF_URN
    session_id := none
    capabilities :=
      ["urn:ietf:params:netconf:base:1.0", "urn:ietf:params:netconf:base:1.1"] }

/-- `Hello::has_capability`: membership in the capability list. -/
def Hello.has_capability (h : Hello) (c : String) : Bool :=
  h.capabilities.any (· = c)

/-- `Connection::hello`, as a function of the decoded server hello: the
framer's `upgraded` flag starts `false` (`AsyncFramer::new`) and
`transport.upgrade()` — which stores `true` — is called iff the server
hello advertises the base 1.1 capability.  Returns the resulting
`upgraded` flag paired with the server-assigned session id. -/
def helloExchange (server : Hello) : Bool × Option Nat :=
  (if server.has_capability NETCONF_BASE_11_CAP then true else false,
   server.session_id)

/-- The observable session state of `Connection`: the `is_closed` flag
(`session_id` and `skip_serializing` do not interact with the claims on
the state machine). -/
structure SessionState where
  is_closed : Bool
deriving DecidableEq, Repr

/-- The public RPC-issuing operations of `Connection`. -/
inductive SessionOp where
  | getConfig
  | get
  | validate
  | commit
  | confirmedCommit
  | closeSession
  | killSession
  | createSubscription
deriving DecidableEq, Repr

/-- Which operations set `is_closed` before running their RPC:
`close_session` and `kill_session` only. -/
def opSetsClosed : SessionOp → Bool
  | .closeSession => true
  | .killSession => true
  | _ => false

/-- One public operation on the connection: the successor state, paired
with whether the operation invoked `run_rpc` (hence wrote an RPC to the
transport).  In the code every operation calls `run_rpc`
unconditionally — there is no check of `is_closed` before issuing. -/
def applyOp (op : SessionOp) (s : SessionState) : SessionState × Bool :=
  ({ is_closed := s.is_closed || opSetsClosed op }, true)

/-- `Connection::new` initial state: `is_closed = false`. -/
def initialSession : SessionState := { is_closed := false }

/-- `Connection::run_rpc`, given the raw reply string the transport
returned and the reply decoder (the external `quick_xml::de::from_str`,
abstracted as a function): when `skip_serializing` is set the raw reply
is returned untouched; otherwise the reply is decoded — a decode failure
propagates as `SerializingFailure`, a decoded reply with errors fails
with `Netconf` wrapping the decoded reply, and otherwise the original raw
string is returned. -/
def run_rpc (skip_serializing : Bool)
    (decode : String → Except String RpcReply)
    (response : String) : Except NetconfClientError String :=
  if skip_serializing then .ok response
  else
    match decode response with
    | .error e => .error (.serializingFailure e)
    | .ok reply =>
      if reply.has_errors then .error (.netconf reply)
      else .ok response

/-! ## Helper lemmas on the chunk-size digit loop. -/

theorem decDigits_lt {n : Nat} (h : n < 10) : decDigits n = [n + 48] := by
  rw [decDigits]
  simp [h]

theorem decDigits_ge {n : Nat} (h : ¬ n < 10) :
    decDigits n = decDigits (n / 10) ++ [n % 10 + 48] := by
  conv_lhs => rw [decDigits]
  simp [h]

/-- Running the digit loop over the decimal digits of `n` multiplies the
accumulator by the corresponding power of ten and adds `n`, as long as the
`u32` accumulator never overflows. -/
theorem parseChunkSize_decDigits :
    ∀ (n : Nat) (rest : List Nat) (a : Nat),
      a * 10 ^ (decDigits n).length + n < 2 ^ 32 →
      parseChunkSize (decDigits n ++ rest) a =
        parseChunkSize rest (a * 10 ^ (decDigits n).length + n) := by
  intro n
  induction n using Nat.strong_induction_on with
  | _ n ih =>
    intro rest a hlt
    by_cases h : n < 10
    · rw [decDigits_lt h] at hlt ⊢
      simp only [List.cons_append, List.nil_append, List.length_cons,
        List.length_nil, Nat.zero_add, pow_one] at hlt ⊢
      rw [parseChunkSize]
      have h35 : ¬ (n + 48 = 35) := by omega
      have h10 : ¬ (n + 48 = 10) := by omega
      have hdig : 48 ≤ n + 48 ∧ n + 48 ≤ 57 := by omega
      rw [if_neg h35, if_neg h10, if_pos hdig]
      congr 1
      have hn48 : a * 10 + (n + 48 - 48) = a * 10 + n := by omega
      rw [hn48, Nat.mod_eq_of_lt hlt]
    · have hlen : (decDigits n).length = (decDigits (n / 10)).length + 1 := by
        rw [decDigits_ge h]
        simp
      rw [decDigits_ge h, List.append_assoc, List.singleton_append]
      rw [hlen, pow_succ] at hlt
      have hb : a * (10 ^ (decDigits (n / 10)).length * 10)
          = a * 10 ^ (decDigits (n / 10)).length * 10 := by ring
      rw [hb] at hlt
      have hdiv : n / 10 < n := Nat.div_lt_self (by omega) (by omega)
      have hlt' : a * 10 ^ (decDigits (n / 10)).length + n / 10 < 2 ^ 32 := by
        omega
      rw [ih (n / 10) hdiv ((n % 10 + 48) :: rest) a hlt']
      rw [parseChunkSize]
      have h35 : ¬ (n % 10 + 48 = 35) := by omega
      have h10 : ¬ (n % 10 + 48 = 10) := by omega
      have hdig : 48 ≤ n % 10 + 48 ∧ n % 10 + 48 ≤ 57 := by omega
      rw [if_neg h35, if_neg h10, if_pos hdig]
      congr 1
      have hlen2 : (decDigits (n / 10) ++ [n % 10 + 48]).length
          = (decDigits (n / 10)).length + 1 := by simp
      rw [hlen2,
        show (10 : Nat) ^ ((decDigits (n / 10)).length + 1)
          = 10 ^ (decDigits (n / 10)).length * 10 from pow_succ 10 _, hb]
      omega

/-- The end-of-chunks sentinel `"\n##\n"` parses as chunk size 0. -/
theorem read_header_sentinel (rest : List Nat) :
    read_header (10 :: 35 :: 35 :: 10 :: rest) = .ok (0, rest) := by
  rw [read_header]
  norm_num
  rw [parseChunkSize, if_pos rfl, parseChunkSize]
  norm_num

/-- A digit header `"\n#" ++ decimal(n) ++ "\n"` parses as chunk size
`n` when `n` fits in a `u32`. -/
theorem read_header_digits (n : Nat) (rest : List Nat) (hn : n < 2 ^ 32) :
    read_header (10 :: 35 :: (decDigits n ++ 10 :: rest)) = .ok (n, rest) := by
  rw [read_header]
  norm_num
  rw [parseChunkSize_decDigits n (10 :: rest) 0 (by simpa using hn)]
  simp only [Nat.zero_mul, Nat.zero_add]
  rw [parseChunkSize]
  norm_num

/-- A non-digit byte other than `'#'` and `'\n'` fails the size loop with
`MalformedChunk` carrying expected `'0'` and the offending byte. -/
theorem parseChunkSize_bad (b : Nat) (rest : List Nat) (size : Nat)
    (h35 : b ≠ 35) (h10 : b ≠ 10) (hdig : ¬(48 ≤ b ∧ b ≤ 57)) :
    parseChunkSize (b :: rest) size = .error (.malformedChunk 48 b) := by
  rw [parseChunkSize, if_neg h35, if_neg h10, if_neg hdig]

/-- The chunk loop stops, returning the accumulator, on the sentinel. -/
theorem readChunks_sentinel (rest acc : List Nat) (fuel : Nat) :
    readChunks (fuel + 1) (10 :: 35 :: 35 :: 10 :: rest) acc = .ok acc := by
  rw [readChunks, read_header_sentinel]
  norm_num

/-! ## C3: the 1.1 chunk-header parser. -/

/-- C3: after the leading `"\n#"` the header parser accumulates ASCII
decimal digits into a `u32` chunk size and returns it on the terminal
`"\n"`; the `"#"` sentinel line `"\n##\n"` yields size 0, which the chunk
loop treats as end-of-message; and any other non-digit byte fails with a
malformed-chunk error carrying the expected character (`'0'`) and the
actual one. -/
theorem chunk_header_spec :
    (∀ (n : Nat) (rest : List Nat), n < 2 ^ 32 →
      read_header (10 :: 35 :: (decDigits n ++ 10 :: rest)) = .ok (n, rest)) ∧
    (∀ rest : List Nat,
      read_header (10 :: 35 :: 35 :: 10 :: rest) = .ok (0, rest)) ∧
    (∀ (b : Nat) (rest : List Nat) (size : Nat), b ≠ 35 → b ≠ 10 →
      ¬(48 ≤ b ∧ b ≤ 57) →
      parseChunkSize (b :: rest) size = .error (.malformedChunk 48 b)) ∧
    (∀ (rest acc : List Nat) (fuel : Nat),
      readChunks (fuel + 1) (10 :: 35 :: 35 :: 10 :: rest) acc = .ok acc) :=
  ⟨read_header_digits, read_header_sentinel, parseChunkSize_bad,
   readChunks_sentinel⟩

/-- C3 witness: the header of a 4096-byte chunk parses to 4096, and the
first non-digit, non-sentinel, non-terminal byte (`'x'` = 120) fails with
`MalformedChunk` carrying expected `'0'` (48) and actual 120. -/
theorem chunk_header_spec_witness :
    read_header (10 :: 35 :: (decDigits 4096 ++ 10 :: [])) = .ok (4096, []) ∧
    parseChunkSize (120 :: [10]) 0 = .error (.malformedChunk 48 120) :=
  ⟨chunk_header_spec.1 4096 [] (by norm_num),
   chunk_header_spec.2.2.1 120 [10] 0 (by decide) (by decide) (by decide)⟩

/-! ## C5: datastore parsing. -/

/-- C5: `Datastore::from_str` is case-insensitive for the three datastore
names, falls back to URL detection when the lowercased input begins with
`http`, `file` or `ftp`, and fails on any other value with an
`UnknownDatastore` error whose expected set is
running/candidate/startup/`ftp|http|file`. -/
theorem datastore_from_str_spec :
    Datastore.from_str "RUNNING" = .ok .running ∧
    Datastore.from_str "CaNdIdAtE" = .ok .candidate ∧
    Datastore.from_str "STARTUP" = .ok .startup ∧
    Datastore.from_str "https://x" = .ok (.url "https://x") ∧
    ∀ s : String, lowerStr s ≠ "running" → lowerStr s ≠ "candidate" →
      lowerStr s ≠ "startup" →
      ¬(startsWithStr (lowerStr s) "http" = true) →
      ¬(startsWithStr (lowerStr s) "file" = true) →
      ¬(startsWithStr (lowerStr s) "ftp" = true) →
      Datastore.from_str s =
        .error (.unknownDatastore
          ["running", "candidate", "startup", "ftp|http|file"] (lowerStr s)) := by
  refine ⟨by rfl, by rfl, by rfl, by rfl, ?_⟩
  intro s h1 h2 h3 h4 h5 h6
  simp only [Datastore.from_str]
  rw [if_neg h1, if_neg h2, if_neg h3, if_neg (by
    intro hor
    rcases hor with hh | hh | hh
    · exact h4 hh
    · exact h5 hh
    · exact h6 hh)]

/-- C5 witness: the unknown value `"zzz"` fails with the expected set. -/
theorem datastore_from_str_spec_witness :
    Datastore.from_str "zzz" =
      .error (.unknownDatastore
        ["running", "candidate", "startup", "ftp|http|file"] "zzz") :=
  datastore_from_str_spec.2.2.2.2 "zzz"
    (by decide) (by decide) (by decide) (by decide) (by decide) (by decide)

/-! ## C6: `has_errors` on decoded replies. -/

/-- C6: a decoded reply reports `has_errors` exactly when the reply
document carried at least one `rpc-error` record. -/
theorem decode_has_errors_iff (d : ReplyDoc) :
    (decodeReply d).has_errors = true ↔ d.errors ≠ [] := by
  cases h : d.errors <;>
    simp [decodeReply, RpcReply.has_errors, h]

/-- C6 witness: a reply carrying one `rpc-error` decodes with
`has_errors = true`. -/
theorem decode_has_errors_iff_witness :
    (decodeReply
      { message_id := "m"
        errors := [{ error_severity := .error, error_type := .rpc
                     error_tag := .inUse, error_app_tag := none
                     error_path := none, error_message := none
                     error_info := none }]
        hasOk := false }).has_errors = true :=
  (decode_has_errors_iff _).mpr (by decide)

/-! ## C9: hello exchange and framing upgrade. -/

/-- C9: the client hello advertises both base 1.0 and base 1.1, and after
the hello exchange the transport is upgraded to 1.1 framing iff the
server's hello advertises the base 1.1 capability. -/
theorem hello_negotiation :
    Hello.new.has_capability "urn:ietf:params:netconf:base:1.0" = true ∧
    Hello.new.has_capability "urn:ietf:params:netconf:base:1.1" = true ∧
    ∀ server : Hello,
      (helloExchange server).1 = server.has_capability NETCONF_BASE_11_CAP := by
  refine ⟨by decide, by decide, ?_⟩
  intro server
  rw [helloExchange]
  by_cases h : server.has_capability NETCONF_BASE_11_CAP <;> simp [h]

/-! ## C2: the RPC execution protocol of `run_rpc`. -/

/-- C2: with reply parsing enabled `run_rpc` decodes the reply and fails
with a NETCONF error wrapping the decoded reply iff the decoded reply has
at least one `rpc-error`; otherwise — and always when parsing is
skipped — it returns the original raw reply string unchanged. -/
theorem run_rpc_spec :
    ∀ (decode : String → Except String RpcReply) (response : String),
      run_rpc true decode response = .ok response ∧
      ∀ reply : RpcReply, decode response = .ok reply →
        (reply.has_errors = true →
          run_rpc false decode response = .error (.netconf reply)) ∧
        (reply.has_errors = false →
          run_rpc false decode response = .ok response) := by
  intro decode response
  refine ⟨by simp [run_rpc], ?_⟩
  intro reply hdec
  constructor <;> intro herr <;> simp [run_rpc, hdec, herr]

/-- C2 witness: a decoded reply with one `rpc-error` makes the call fail
with `Netconf` wrapping that reply; skipping the parse returns the raw
string. -/
theorem run_rpc_spec_witness :
    run_rpc false
        (fun _ => .ok { message_id := "m"
                        rpc_error := some [{ error_severity := .error
                                             error_type := .rpc
                                             error_tag := .inUse
                                             error_app_tag := none
                                             error_path := none
                                             error_message := none
                                             error_info := none }]
                        ok := none })
        "raw reply"
      = .error (.netconf { message_id := "m"
                           rpc_error := some [{ error_severity := .error
                                                error_type := .rpc
                                                error_tag := .inUse
                                                error_app_tag := none
                                                error_path := none
                                                error_message := none
                                                error_info := none }]
                           ok := none }) ∧
    run_rpc true (fun _ => .error "ignored") "raw reply" = .ok "raw reply" :=
  ⟨((run_rpc_spec _ "raw reply").2 _ rfl).1 (by decide),
   (run_rpc_spec (fun _ => .error "ignored") "raw reply").1⟩

/-! ## C8: the `is_closed` flag. -/

/-- C8 counterexample: the claim that no further RPC operation may be
issued after `close_session` fails on the code — `run_rpc` never consults
`is_closed`, so a `get` on the already-closed session still issues its
RPC (the second component of `applyOp` records that `run_rpc` ran). -/
theorem closed_session_rpc_counterexample :
    (applyOp .closeSession initialSession).1.is_closed = true ∧
    (applyOp .get (applyOp .closeSession initialSession).1).2 = true := by
  decide

/-- C8 (amended): `close_session` and `kill_session` set the session's
`is_closed` flag, and the flag is a monotonic one-way bit — no operation
ever clears it; the code, however, does not itself refuse RPCs issued
after close (that prohibition is a caller obligation; the flag only gates
the destructor's implicit close). -/
theorem closed_flag_monotonic :
    ∀ (op : SessionOp) (s : SessionState),
      (s.is_closed = true → ((applyOp op s).1).is_closed = true) ∧
      ((applyOp .closeSession s).1).is_closed = true ∧
      ((applyOp .killSession s).1).is_closed = true := by
  intro op s
  obtain ⟨b⟩ := s
  refine ⟨fun h => ?_, ?_, ?_⟩ <;>
    first
      | (cases h; simp [applyOp])
      | simp [applyOp, opSetsClosed]

/-- C8 amended witness: on an already-closed session every operation
leaves the flag set. -/
theorem closed_flag_monotonic_witness :
    ((applyOp .get { is_closed := true }).1).is_closed = true :=
  (closed_flag_monotonic .get { is_closed := true }).1 rfl

/-! ## C1: chunked-framer round trip. -/

/-- The chunk loop on the single-chunk stream `write_async` emits
recovers the payload. -/
theorem readChunks_write (M : List Nat) (fuel : Nat) (hfuel : 2 ≤ fuel)
    (hlen : M.length < 2 ^ 32) :
    readChunks fuel (write_async_11 M) [] = .ok M := by
  obtain ⟨f, rfl⟩ : ∃ f, fuel = f + 1 + 1 := ⟨fuel - 2, by omega⟩
  rw [write_async_11, readChunks]
  simp only [List.cons_append, List.append_assoc, List.nil_append]
  rw [read_header_digits M.length (M ++ [10, 35, 35, 10]) hlen]
  by_cases h0 : M.length = 0
  · have hM : M = [] := List.eq_nil_of_length_eq_zero h0
    subst hM
    simp
  · have hle : M.length ≤ (M ++ [10, 35, 35, 10]).length := by
      simp
    simp only [h0, if_false, hle, if_true, List.take_left, List.drop_left,
      List.nil_append]
    exact readChunks_sentinel [] M f

/-- The chunk loop on the size-one-chunks stream recovers the payload. -/
theorem readChunks_chunksOfOne :
    ∀ (M acc : List Nat) (fuel : Nat), M.length + 1 ≤ fuel →
      readChunks fuel (chunksOfOne M) acc = .ok (acc ++ M) := by
  intro M
  induction M with
  | nil =>
    intro acc fuel hf
    obtain ⟨f, rfl⟩ : ∃ f, fuel = f + 1 := ⟨fuel - 1, by omega⟩
    rw [chunksOfOne]
    simpa using readChunks_sentinel [] acc f
  | cons b M' ih =>
    intro acc fuel hf
    obtain ⟨f, rfl⟩ : ∃ f, fuel = f + 1 := ⟨fuel - 1, by omega⟩
    rw [chunksOfOne, readChunks]
    have hhd : read_header (10 :: 35 :: 49 :: 10 :: b :: chunksOfOne M')
        = .ok (1, b :: chunksOfOne M') := by
      rw [read_header]
      norm_num
      rw [parseChunkSize]
      norm_num
      rw [parseChunkSize]
      norm_num
    rw [hhd]
    have hone : (1 : Nat) ≤ (b :: chunksOfOne M').length := by
      simp
    have ht : List.take 1 (b :: chunksOfOne M') = [b] := rfl
    have hd : List.drop 1 (b :: chunksOfOne M') = chunksOfOne M' := rfl
    simp only [if_neg one_ne_zero, hone, if_true, ht, hd]
    rw [ih (acc ++ [b]) f (by simp at hf ⊢; omega)]
    simp

/-- Length of the size-one-chunks stream. -/
theorem chunksOfOne_length (M : List Nat) :
    (chunksOfOne M).length = 5 * M.length + 4 := by
  induction M with
  | nil => rw [chunksOfOne]; rfl
  | cons b M' ih => rw [chunksOfOne]; simp [ih]; omega

/-- C1: writing a message with the chunked (1.1-mode) framer and reading
back from the produced byte stream yields the message with trailing
whitespace trimmed (`M.trim_end()`); the same holds when the message
arrives split into chunks of size 1.  The hypotheses scope the embedding:
the octets are ASCII (so `rustTrimEnd` coincides with
`from_utf8_lossy(..).trim_end()`) and the length fits the `u32` size
accumulator.  The universally quantified message covers the lengths 0, 1
and 4096 of the claim. -/
theorem chunked_roundtrip (M : List Nat) (hascii : ∀ b ∈ M, b < 128)
    (hlen : M.length < 2 ^ 32) :
    read_async_11 (write_async_11 M) = .ok (rustTrimEnd M) ∧
    read_async_11 (chunksOfOne M) = .ok (rustTrimEnd M) := by
  constructor
  · rw [read_async_11, readChunks_write M _ (by simp [write_async_11]) hlen]
    rfl
  · rw [read_async_11,
      readChunks_chunksOfOne M [] _ (by rw [chunksOfOne_length]; omega)]
    rfl

/-- C1 witness: the message `"<a> \n"` (octets `[60, 97, 62, 32, 10]`)
round-trips through both streams to `"<a>"`. -/
theorem chunked_roundtrip_witness :
    read_async_11 (write_async_11 [60, 97, 62, 32, 10]) = .ok [60, 97, 62] ∧
    read_async_11 (chunksOfOne [60, 97, 62, 32, 10]) = .ok [60, 97, 62] :=
  chunked_roundtrip [60, 97, 62, 32, 10] (by decide) (by decide)

/-! ## C7: the 1.0-mode read. -/

/-- `findSub pat l = some i` means `pat` occurs at `i` and at no earlier
position — the leftmost-match contract of `TwoWaySearcher`. -/
theorem findSub_some_iff_first :
    ∀ (pat l : List Nat) (i : Nat), findSub pat l = some i →
      pat.isPrefixOf (l.drop i) = true ∧
      ∀ j, j < i → ¬(pat.isPrefixOf (l.drop j) = true) := by
  intro pat l
  induction l with
  | nil =>
    intro i h
    rw [findSub] at h
    by_cases hp : pat = []
    · rw [if_pos hp] at h
      obtain rfl : i = 0 := by simpa using h.symm
      subst hp
      exact ⟨rfl, fun j hj => absurd hj (Nat.not_lt_zero j)⟩
    · rw [if_neg hp] at h
      exact absurd h (by simp)
  | cons b rest ih =>
    intro i h
    rw [findSub] at h
    by_cases hp : pat.isPrefixOf (b :: rest) = true
    · rw [if_pos hp] at h
      obtain rfl : i = 0 := by simpa using h.symm
      exact ⟨hp, fun j hj => absurd hj (Nat.not_lt_zero j)⟩
    · rw [if_neg hp] at h
      obtain ⟨i', hi', rfl⟩ : ∃ i', findSub pat rest = some i' ∧ i = i' + 1 := by
        cases hfind : findSub pat rest with
        | none => rw [hfind] at h; simp at h
        | some k => rw [hfind] at h; simp at h; exact ⟨k, rfl, h.symm⟩
      obtain ⟨hocc, hmin⟩ := ih i' hi'
      refine ⟨by simpa [List.drop_succ_cons] using hocc, ?_⟩
      intro j hj
      cases j with
      | zero => simpa using hp
      | succ j' =>
        rw [List.drop_succ_cons]
        exact hmin j' (by omega)

/-- An occurrence of `pat` in `a` is an occurrence in `a ++ b`. -/
theorem isPrefixOf_drop_append {pat a : List Nat} (b : List Nat) {i : Nat}
    (h : pat.isPrefixOf (a.drop i) = true) :
    pat.isPrefixOf ((a ++ b).drop i) = true := by
  rw [List.isPrefixOf_iff_prefix] at h ⊢
  rw [List.drop_append_eq_append_drop]
  exact h.trans (List.prefix_append _ _)

/-- An occurrence of a nonempty `pat` at `i` in `a` fits inside `a`. -/
theorem occurrence_le_length {pat a : List Nat} {i : Nat} (hne : pat ≠ [])
    (h : pat.isPrefixOf (a.drop i) = true) :
    i + pat.length ≤ a.length := by
  rw [List.isPrefixOf_iff_prefix] at h
  have hlen := h.length_le
  rw [List.length_drop] at hlen
  have hpos : 0 < pat.length := List.length_pos.mpr hne
  by_cases hle : i ≤ a.length
  · omega
  · exfalso
    rw [List.drop_eq_nil_of_le (by omega)] at h
    have := h.length_le
    simp at this
    omega

/-- The 1.0 read loop: if the concatenation of the read buffer and all
remaining channel segments is `pre ++ "]]>]]>"`, and the first occurrence
of the terminator in that stream is the final one, the loop returns
`pre` trimmed and consumes everything. -/
theorem read10_aux :
    ∀ (segs : List (List Nat)) (buf pre : List Nat),
      buf ++ segs.flatten = pre ++ terminator →
      findSub terminator (pre ++ terminator) = some pre.length →
      read_async_10 segs buf = .ok (rustTrimEnd pre, []) := by
  intro segs
  induction segs with
  | nil =>
    intro buf pre hcat hfirst
    simp only [List.flatten_nil, List.append_nil] at hcat
    subst hcat
    rw [read_async_10, hfirst]
    show Except.ok (rustTrimEnd ((pre ++ terminator).take pre.length),
      (pre ++ terminator).drop (pre.length + 6)) = _
    rw [List.take_left]
    have hdrop : (pre ++ terminator).drop (pre.length + 6) = [] := by
      apply List.drop_eq_nil_of_le
      simp [terminator]
    rw [hdrop]
  | cons s rest ih =>
    intro buf pre hcat hfirst
    rw [read_async_10]
    cases hfind : findSub terminator buf with
    | none =>
      apply ih (buf ++ s) pre ?_ hfirst
      rw [List.append_assoc]
      simpa [List.flatten_cons] using hcat
    | some pos =>
      obtain ⟨hocc, _⟩ := findSub_some_iff_first terminator buf pos hfind
      have hfull : terminator.isPrefixOf ((pre ++ terminator).drop pos) = true := by
        rw [← hcat]
        exact isPrefixOf_drop_append _ hocc
      obtain ⟨_, hminfull⟩ :=
        findSub_some_iff_first terminator (pre ++ terminator) pre.length hfirst
      have hge : pre.length ≤ pos := by
        by_contra hlt
        exact hminfull pos (by omega) hfull
      have hfit : pos + 6 ≤ buf.length :=
        occurrence_le_length (by decide) hocc
      have hlensum : buf.length + (s.length + rest.flatten.length)
          = pre.length + 6 := by
        have := congrArg List.length hcat
        simpa [List.flatten_cons, terminator] using this
      have hpos : pos = pre.length := by omega
      have hnil : s ++ rest.flatten = [] := by
        apply List.eq_nil_of_length_eq_zero
        simp only [List.length_append]
        omega
      have hbuf : buf = pre ++ terminator := by
        have : buf ++ (s ++ rest.flatten) = pre ++ terminator := by
          simpa [List.flatten_cons] using hcat
        rw [hnil, List.append_nil] at this
        exact this
      subst hbuf hpos
      show Except.ok (rustTrimEnd ((pre ++ terminator).take pre.length),
        (pre ++ terminator).drop (pre.length + 6)) = _
      rw [List.take_left]
      have hdrop : (pre ++ terminator).drop (pre.length + 6) = [] := by
        apply List.drop_eq_nil_of_le
        simp [terminator]
      rw [hdrop]

/-- C7: in 1.0 mode the framer reads segment after segment into its
buffer until the buffer contains `"]]>]]>"`, returns the bytes strictly
before the delimiter trimmed of trailing whitespace, and consumes the
delimiter from the buffer — in particular when the six-byte terminator
straddles a read boundary (first part, arbitrary segmentation of the
stream), and leaving data past the delimiter in the buffer (second
part).  The ASCII hypothesis scopes the byte-level `rustTrimEnd` model of
`from_utf8_lossy(..).trim_end()`. -/
theorem read10_spec :
    (∀ (segs : List (List Nat)) (pre : List Nat),
      (∀ b ∈ pre, b < 128) →
      segs.flatten = pre ++ terminator →
      findSub terminator (pre ++ terminator) = some pre.length →
      read_async_10 segs [] = .ok (rustTrimEnd pre, [])) ∧
    (∀ (pre post : List Nat),
      (∀ b ∈ pre, b < 128) →
      findSub terminator (pre ++ terminator ++ post) = some pre.length →
      read_async_10 [pre ++ terminator ++ post] [] =
        .ok (rustTrimEnd pre, post)) := by
  constructor
  · intro segs pre _ hcat hfirst
    exact read10_aux segs [] pre (by simpa using hcat) hfirst
  · intro pre post _ hfirst
    rw [read_async_10]
    have hnone : findSub terminator ([] : List Nat) = none := rfl
    rw [hnone, read_async_10, List.nil_append, hfirst]
    have htake : (pre ++ terminator ++ post).take pre.length = pre := by
      rw [List.append_assoc]
      exact List.take_left _ _
    have hdrop : (pre ++ terminator ++ post).drop (pre.length + 6) = post := by
      have hlen : pre.length + 6 = (pre ++ terminator).length := by
        simp [terminator]
      rw [hlen, List.drop_left]
    show Except.ok (rustTrimEnd ((pre ++ terminator ++ post).take pre.length),
      (pre ++ terminator ++ post).drop (pre.length + 6)) = _
    rw [htake, hdrop]

/-- C7 witness: the stream `"ab ]]>" / "]]>"` — terminator split across
the two reads — decodes to `"ab"` with nothing left over, and a
single-segment stream with trailing data `"x"` leaves `"x"` buffered. -/
theorem read10_spec_witness :
    read_async_10 [[97, 98, 32, 93, 93, 62], [93, 93, 62]] [] =
      .ok ([97, 98], []) ∧
    read_async_10 [[97, 98] ++ terminator ++ [120]] [] =
      .ok ([97, 98], [120]) :=
  ⟨read10_spec.1 [[97, 98, 32, 93, 93, 62], [93, 93, 62]] [97, 98, 32]
      (by decide) (by decide) (by decide),
   read10_spec.2 [97, 98] [120] (by decide) (by decide)⟩

/-! ## C10: totality of `Filter::subtree`. -/

/-- Length of the run of backslashes at the end of a string. -/
def trailingBackslashes (cs : List Char) : Nat :=
  (cs.reverse.takeWhile (fun c => c = '\\')).length

theorem takeWhile_append_singleton_neg {p : Char → Bool} {c : Char}
    (hc : p c = false) (xs : List Char) :
    (xs ++ [c]).takeWhile p = xs.takeWhile p := by
  induction xs with
  | nil => simp [List.takeWhile, hc]
  | cons x xs ih =>
    cases hx : p x <;>
      simp [List.takeWhile_cons, hx, ih]

theorem takeWhile_append_singleton_pos {p : Char → Bool} {c : Char}
    (hc : p c = true) (xs : List Char) :
    (xs ++ [c]).takeWhile p =
      if xs.takeWhile p = xs then xs ++ [c] else xs.takeWhile p := by
  induction xs with
  | nil => simp [List.takeWhile, hc]
  | cons x xs ih =>
    cases hx : p x
    · simp [List.takeWhile_cons, hx]
    · simp only [List.cons_append, List.takeWhile_cons, hx, if_true, ih]
      by_cases h : xs.takeWhile p = xs
      · simp [h]
      · simp [h]

/-- Prepending a non-backslash leaves the trailing run unchanged. -/
theorem trailingBackslashes_cons_other {c : Char} (hc : c ≠ '\\')
    (l : List Char) :
    trailingBackslashes (c :: l) = trailingBackslashes l := by
  rw [trailingBackslashes, trailingBackslashes, List.reverse_cons,
    takeWhile_append_singleton_neg (by simp [hc])]

/-- Prepending a backslash: the run grows through an all-backslash tail,
and is otherwise unchanged. -/
theorem trailingBackslashes_cons_bs (l : List Char) :
    trailingBackslashes ('\\' :: l) =
      if ∀ x ∈ l, x = '\\' then l.length + 1 else trailingBackslashes l := by
  rw [trailingBackslashes, trailingBackslashes, List.reverse_cons,
    takeWhile_append_singleton_pos (by simp)]
  by_cases h : ∀ x ∈ l, x = '\\'
  · have hall : l.reverse.takeWhile (fun c => c = '\\') = l.reverse := by
      rw [List.takeWhile_eq_self_iff]
      intro x hx
      simp only [List.mem_reverse] at hx
      simp [h x hx]
    rw [if_pos hall, if_pos h]
    simp
  · have hnall : ¬ l.reverse.takeWhile (fun c => c = '\\') = l.reverse := by
      rw [List.takeWhile_eq_self_iff]
      intro hx
      exact h fun x hm => by simpa using hx x (List.mem_reverse.mpr hm)
    rw [if_neg hnall, if_neg h]

/-- An all-backslash string is its own trailing run. -/
theorem trailingBackslashes_all {l : List Char} (h : ∀ x ∈ l, x = '\\') :
    trailingBackslashes l = l.length := by
  rw [trailingBackslashes]
  have hall : l.reverse.takeWhile (fun c => c = '\\') = l.reverse := by
    rw [List.takeWhile_eq_self_iff]
    intro x hx
    simp [h x (List.mem_reverse.mp hx)]
  rw [hall, List.length_reverse]

/-- The escape-stripping loop fails exactly when the string ends in an
odd run of backslashes — a final backslash that escapes nothing. -/
theorem stripSlashesChars_eq_none_iff :
    ∀ cs : List Char,
      stripSlashesChars cs = none ↔ trailingBackslashes cs % 2 = 1 := by
  intro cs
  induction cs using stripSlashesChars.induct with
  | case1 =>
    simp [stripSlashesChars, trailingBackslashes]
  | case2 =>
    decide
  | case3 d rest2 ih =>
    have hunf : stripSlashesChars ('\\' :: d :: rest2)
        = (stripSlashesChars rest2).map (d :: ·) := by
      rw [stripSlashesChars.eq_3, if_pos rfl]
    rw [hunf, Option.map_eq_none', ih, trailingBackslashes_cons_bs]
    by_cases hall : ∀ x ∈ d :: rest2, x = '\\'
    · have hall2 : ∀ x ∈ rest2, x = '\\' := fun x hx => hall x (by simp [hx])
      rw [if_pos hall, trailingBackslashes_all hall2]
      simp only [List.length_cons]
      omega
    · rw [if_neg hall]
      by_cases hd : d = '\\'
      · subst hd
        rw [trailingBackslashes_cons_bs]
        have hnall2 : ¬ ∀ x ∈ rest2, x = '\\' := by
          intro h2
          exact hall fun x hx => by
            rcases List.mem_cons.mp hx with h | h
            · simp [h]
            · exact h2 x h
        rw [if_neg hnall2]
      · rw [trailingBackslashes_cons_other hd]
  | case4 d rest2 hd ih =>
    have hunf : stripSlashesChars (d :: rest2)
        = (stripSlashesChars rest2).map (d :: ·) := by
      cases rest2 with
      | nil => rw [stripSlashesChars.eq_2, if_neg hd]
      | cons e r => rw [stripSlashesChars.eq_3, if_neg hd]
    rw [hunf, Option.map_eq_none', ih, trailingBackslashes_cons_other hd]

/-- C10: `Filter::subtree` is total whenever the trimmed input does not
end in an unpaired backslash (an odd trailing run of `'\'`), returning
the trimmed, backslash-stripped payload; when the trimmed input ends in a
backslash that escapes nothing, `strip_slashes` returns `None` and the
`unwrap` in `Filter::subtree` panics (modelled as `none`). -/
theorem filter_subtree_totality :
    ∀ S : List Char,
      (trailingBackslashes (trimChars S) % 2 = 0 →
        ∃ t, strip_slashes S = some t ∧
          Filter.subtree S = some { filter_type := "subtree"
                                    filter := trimChars t }) ∧
      (trailingBackslashes (trimChars S) % 2 = 1 →
        strip_slashes S = none ∧ Filter.subtree S = none) := by
  intro S
  have hiff := stripSlashesChars_eq_none_iff (trimChars S)
  constructor
  · intro h
    cases hs : stripSlashesChars (trimChars S) with
    | none =>
      have := hiff.mp hs
      omega
    | some t =>
      refine ⟨t, hs, ?_⟩
      rw [Filter.subtree, strip_slashes, hs]
      rfl
  · intro h
    have hs : stripSlashesChars (trimChars S) = none := hiff.mpr h
    exact ⟨hs, by rw [Filter.subtree, strip_slashes, hs]; rfl⟩

/-- C10 witness: `"a"` (even trailing run) succeeds; `"a\"` (an unpaired
final backslash) makes `strip_slashes` return `None`, so the `unwrap`
panics. -/
theorem filter_subtree_totality_witness :
    (∃ t, strip_slashes ['a'] = some t ∧
      Filter.subtree ['a'] = some { filter_type := "subtree"
                                    filter := trimChars t }) ∧
    strip_slashes ['a', '\\'] = none ∧ Filter.subtree ['a', '\\'] = none :=
  ⟨(filter_subtree_totality ['a']).1 (by decide),
   (filter_subtree_totality ['a', '\\']).2 (by decide)⟩

/-! ## C4: verbatim emission of the subtree filter. -/

theorem trimChars_eq_backTrim_frontTrim (l : List Char) :
    trimChars l = backTrim (frontTrim l) := rfl

theorem dropWhile_idem (p : Char → Bool) (l : List Char) :
    (l.dropWhile p).dropWhile p = l.dropWhile p := by
  induction l with
  | nil => rfl
  | cons c l ih =>
    cases hc : p c <;> simp [List.dropWhile_cons, hc, ih]

theorem frontTrim_idem (l : List Char) :
    frontTrim (frontTrim l) = frontTrim l :=
  dropWhile_idem wsChar l

theorem backTrim_idem (l : List Char) :
    backTrim (backTrim l) = backTrim l := by
  rw [backTrim, backTrim, List.reverse_reverse, dropWhile_idem]

theorem backTrim_prefix_self (l : List Char) : backTrim l <+: l := by
  rw [backTrim, ← List.reverse_reverse l, List.reverse_prefix,
    List.reverse_reverse]
  exact List.dropWhile_suffix _

theorem frontTrim_backTrim_comm (l : List Char) :
    frontTrim (backTrim l) = backTrim (frontTrim l) := by
  induction l with
  | nil => rfl
  | cons c l ih =>
    cases hc : wsChar c
    · have hft : frontTrim (c :: l) = c :: l := by
        simp [frontTrim, List.dropWhile_cons, hc]
      rw [hft]
      cases hb : backTrim (c :: l) with
      | nil => simp [frontTrim]
      | cons b t =>
        have hpre := backTrim_prefix_self (c :: l)
        rw [hb] at hpre
        obtain ⟨u, hu⟩ := hpre
        rw [List.cons_append] at hu
        have hbc : b = c := by injection hu
        subst hbc
        simp [frontTrim, List.dropWhile_cons, hc]
    · have hft : frontTrim (c :: l) = frontTrim l := by
        simp [frontTrim, List.dropWhile_cons, hc]
      rw [hft, ← ih]
      by_cases hall : ∀ x ∈ l.reverse, wsChar x = true
      · have h1 : l.reverse.dropWhile wsChar = [] :=
          List.dropWhile_eq_nil_iff.mpr hall
        have h2 : backTrim l = [] := by simp [backTrim, h1]
        have h3 : backTrim (c :: l) = [] := by
          rw [backTrim, List.reverse_cons, List.dropWhile_append]
          simp [h1, List.dropWhile_cons, hc]
        rw [h2, h3]
      · have h1 : ¬ (l.reverse.dropWhile wsChar).isEmpty = true := by
          rw [List.isEmpty_iff]
          intro h
          exact hall (List.dropWhile_eq_nil_iff.mp h)
        have h3 : backTrim (c :: l) = c :: backTrim l := by
          rw [backTrim, List.reverse_cons, List.dropWhile_append, if_neg h1]
          simp [backTrim]
        rw [h3]
        simp [frontTrim, List.dropWhile_cons, hc]

/-- `str::trim` is idempotent. -/
theorem trimChars_idem (l : List Char) :
    trimChars (trimChars l) = trimChars l := by
  rw [trimChars_eq_backTrim_frontTrim, trimChars_eq_backTrim_frontTrim,
    frontTrim_backTrim_comm, frontTrim_idem, backTrim_idem]

/-- Trimming only removes characters. -/
theorem mem_of_mem_trimChars {x : Char} {l : List Char}
    (h : x ∈ trimChars l) : x ∈ l := by
  rw [trimChars_eq_backTrim_frontTrim] at h
  have h1 : x ∈ frontTrim l := (backTrim_prefix_self (frontTrim l)).subset h
  exact (List.dropWhile_sublist wsChar).subset h1

/-- The escape-stripping loop on a cons headed by a non-backslash. -/
theorem stripSlashesChars_cons_ne {c : Char} (rest : List Char)
    (hc : c ≠ '\\') :
    stripSlashesChars (c :: rest) = (stripSlashesChars rest).map (c :: ·) := by
  cases rest with
  | nil => rw [stripSlashesChars.eq_2, if_neg hc]
  | cons e r => rw [stripSlashesChars.eq_3, if_neg hc]

/-- On a backslash-free string the stripping loop is the identity. -/
theorem stripSlashesChars_no_bs :
    ∀ l : List Char, '\\' ∉ l → stripSlashesChars l = some l := by
  intro l
  induction l with
  | nil => intro _; rfl
  | cons c rest ih =>
    intro h
    have hc : c ≠ '\\' := fun he => h (he ▸ List.mem_cons_self c rest)
    have hrest : '\\' ∉ rest := fun hm => h (List.mem_cons_of_mem c hm)
    rw [stripSlashesChars_cons_ne rest hc, ih hrest]
    rfl

theorem unescapeChars_nil : unescapeChars [] = some [] := by
  rw [unescapeChars.eq_1]

/-- Unescaping a string that contains no ampersand prepends it
verbatim. -/
theorem unescapeChars_clean_append :
    ∀ (cs rest : List Char), '&' ∉ cs →
      unescapeChars (cs ++ rest) = (unescapeChars rest).map (cs ++ ·) := by
  intro cs
  induction cs with
  | nil =>
    intro rest _
    simp
  | cons c cs ih =>
    intro rest h
    have hc : c ≠ '&' := fun he => h (he ▸ List.mem_cons_self c cs)
    have hcs : '&' ∉ cs := fun hm => h (List.mem_cons_of_mem c hm)
    rw [List.cons_append, unescapeChars.eq_2, if_neg hc, ih rest hcs,
      Option.map_map]
    rfl

/-- Unescaping the escape of one character prepends that character. -/
theorem unescapeChars_escChar_append (c : Char) (rest : List Char) :
    unescapeChars (escChar c ++ rest) = (unescapeChars rest).map (c :: ·) := by
  by_cases h1 : c = '&'
  · subst h1
    show unescapeChars ('&' :: (['a', 'm', 'p', ';'] ++ rest))
      = (unescapeChars rest).map ('&' :: ·)
    rw [unescapeChars.eq_2]
    simp [List.isPrefixOf]
  · by_cases h2 : c = '<'
    · subst h2
      show unescapeChars ('&' :: (['l', 't', ';'] ++ rest))
        = (unescapeChars rest).map ('<' :: ·)
      rw [unescapeChars.eq_2]
      simp [List.isPrefixOf]
    · by_cases h3 : c = '>'
      · subst h3
        show unescapeChars ('&' :: (['g', 't', ';'] ++ rest))
          = (unescapeChars rest).map ('>' :: ·)
        rw [unescapeChars.eq_2]
        simp [List.isPrefixOf]
      · by_cases h4 : c = '\''
        · subst h4
          show unescapeChars ('&' :: (['a', 'p', 'o', 's', ';'] ++ rest))
            = (unescapeChars rest).map ('\'' :: ·)
          rw [unescapeChars.eq_2]
          simp [List.isPrefixOf]
        · by_cases h5 : c = '"'
          · subst h5
            show unescapeChars ('&' :: (['q', 'u', 'o', 't', ';'] ++ rest))
              = (unescapeChars rest).map ('"' :: ·)
            rw [unescapeChars.eq_2]
            simp [List.isPrefixOf]
          · have hesc : escChar c = [c] := by
              rw [escChar, if_neg h1, if_neg h2, if_neg h3, if_neg h4,
                if_neg h5]
            rw [hesc, List.singleton_append, unescapeChars.eq_2, if_neg h1]

/-- Unescaping the escape of a string prepends the string verbatim: the
serializer's escape composed with the `Display` unescape is the
identity on the filter payload. -/
theorem unescapeChars_escape_append :
    ∀ (cs rest : List Char),
      unescapeChars (escapeChars cs ++ rest) =
        (unescapeChars rest).map (cs ++ ·) := by
  intro cs
  induction cs with
  | nil =>
    intro rest
    simp [escapeChars]
  | cons c cs ih =>
    intro rest
    rw [escapeChars, List.flatMap_cons, List.append_assoc]
    have h1 := unescapeChars_escChar_append c (cs.flatMap escChar ++ rest)
    rw [h1, show (cs.flatMap escChar : List Char) = escapeChars cs from rfl,
      ih rest, Option.map_map]
    rfl

/-- C4: for a subtree filter without backslashes, the `get` envelope as
printed by `Display for Rpc` (serialise, then unescape the whole buffer)
contains the trimmed filter fragment verbatim — un-escaped — between
`<filter type="subtree">` and `</filter>`; and in general the stripping
pass replaces every backslash-escape `\x` by `x`.  The `message-id` is
ampersand-free (it is a UUID in the code), which keeps the envelope's
fixed text invariant under the final unescape. -/
theorem subtree_filter_verbatim :
    (∀ (S mid : List Char), '\\' ∉ S → '&' ∉ mid →
      ∃ f, Filter.subtree S = some f ∧ f.filter = trimChars S ∧
        displayGetRpc mid f = some (
          ("<rpc message-id=\"").toList ++ (mid ++
            (("\" xmlns=\"urn:ietf:params:xml:ns:netconf:base:1.0\">\n  <get>\n    <filter type=\"subtree\">\n      ").toList ++
            (trimChars S ++
              ("\n    </filter>\n  </get>\n</rpc>").toList))))) ∧
    (∀ (A B : List Char) (c : Char), '\\' ∉ A →
      stripSlashesChars (A ++ '\\' :: c :: B) =
        (stripSlashesChars B).map (fun t => A ++ c :: t)) := by
  constructor
  · intro S mid hbs hamp
    have hbs' : '\\' ∉ trimChars S := fun h => hbs (mem_of_mem_trimChars h)
    have hstrip : strip_slashes S = some (trimChars S) := by
      rw [strip_slashes, stripSlashesChars_no_bs _ hbs']
    have hsub : Filter.subtree S
        = some { filter_type := "subtree"
                 filter := trimChars (trimChars S) } := by
      rw [Filter.subtree, hstrip]
      rfl
    refine ⟨_, hsub, by simp [trimChars_idem], ?_⟩
    rw [displayGetRpc, serializeGetEnvelope]
    rw [show ({ filter_type := "subtree"
                filter := trimChars (trimChars S) } : Filter).filter
      = trimChars (trimChars S) from rfl, trimChars_idem]
    simp only [List.append_assoc]
    rw [unescapeChars_clean_append _ _ (by decide)]
    rw [unescapeChars_clean_append _ _ hamp]
    rw [unescapeChars_clean_append _ _ (by decide)]
    rw [unescapeChars_escape_append]
    have hP3 : unescapeChars (("\n    </filter>\n  </get>\n</rpc>").toList)
        = some (("\n    </filter>\n  </get>\n</rpc>").toList) := by
      have h := unescapeChars_clean_append
        (("\n    </filter>\n  </get>\n</rpc>").toList) [] (by decide)
      simpa [unescapeChars_nil] using h
    rw [hP3]
    rfl
  · intro A B c
    induction A with
    | nil =>
      intro _
      simp only [List.nil_append]
      rw [stripSlashesChars.eq_3, if_pos rfl]
    | cons a A ih =>
      intro h
      have ha : a ≠ '\\' := fun he => h (he ▸ List.mem_cons_self a A)
      have hA : '\\' ∉ A := fun hm => h (List.mem_cons_of_mem a hm)
      rw [List.cons_append,
        stripSlashesChars_cons_ne (A ++ '\\' :: c :: B) ha, ih hA,
        Option.map_map]
      rfl

/-- C4 witness: the fragment `"<a> "` with message-id `"m"`: the envelope
text carries `"<a>"` (the trimmed fragment) verbatim between the filter
tags; and stripping turns the escape in a backslash-escaped quote into
the bare quote. -/
theorem subtree_filter_verbatim_witness :
    (∃ f, Filter.subtree ['<', 'a', '>', ' '] = some f ∧
      f.filter = trimChars ['<', 'a', '>', ' '] ∧
      displayGetRpc ['m'] f = some (
        ("<rpc message-id=\"").toList ++ (['m'] ++
          (("\" xmlns=\"urn:ietf:params:xml:ns:netconf:base:1.0\">\n  <get>\n    <filter type=\"subtree\">\n      ").toList ++
          (trimChars ['<', 'a', '>', ' '] ++
            ("\n    </filter>\n  </get>\n</rpc>").toList))))) ∧
    stripSlashesChars (['x'] ++ '\\' :: '"' :: []) =
      (stripSlashesChars []).map (fun t => ['x'] ++ '"' :: t) :=
  ⟨subtree_filter_verbatim.1 ['<', 'a', '>', ' '] ['m']
      (by decide) (by decide),
   subtree_filter_verbatim.2 ['x'] [] '"' (by decide)⟩

end Netconf
